import Mathlib

/-!
A shallow embedding of the `bptree` Go package (an in-memory B+ tree keyed by
byte sequences) together with theorems about its specification.

The embedding follows the most complete engine variant in the source
(the file containing `Order`, `Put`, `Delete`, `rebalanceFromLeafNode`,
`rebalanceParentNode`, `removeFromIndex`) plus `iterator.go`.

Modelling conventions:
* Byte slices are `List Nat` (`Bytes`); `bytes.Compare` is lexicographic
  comparison, and a `nil` slice compares like the empty slice.
* Go nodes are mutable and shared (parent back-references, the leaf chain),
  so the node store is an explicit heap: `nodes : List Node` addressed by
  index, and every Go pointer field holds a node index.
* Go statements that can fault (nil dereference, failed `interface`
  type assertion such as `asNode` and `asValue` on the wrong payload, the
  iterator's explicit invalid-state fault) are modelled in the `Option`
  monad: `none` is a fault.  Loops whose termination depends on heap
  well-formedness (descents, the split cascade, recursive rebalancing,
  iteration) take explicit fuel; callers pass fuel that is ample for every
  well-formed heap, and running out of fuel also yields `none`.
* Index reads outside a slice's range yield the zero value (`none` slot)
  and writes outside the range are dropped, mirroring that the Go code
  only indexes in range on well-formed trees.
-/

/-- Byte sequences (`[]byte`); a `nil` slice is identified with `[]`
except where a slot explicitly distinguishes `nil` (then `Option Bytes`). -/
abbrev Bytes := List Nat

/-- `bytes.Compare x y` (`compare` in the source; renamed, the name clashes with `Ord.compare`): -1, 0, or 1, lexicographically. -/
def compareBytes : Bytes → Bytes → Int
  | [], [] => 0
  | [], _ :: _ => -1
  | _ :: _, [] => 1
  | a :: xs, b :: ys => if a < b then -1 else if b < a then 1 else compareBytes xs ys

/-- `less x y` iff `compare(x, y) < 0`. -/
def less (x y : Bytes) : Bool := compareBytes x y < 0

/-- `copyBytes` allocates a fresh slice with the same content; on immutable
values it is the identity (slice identity is modelled separately for the
defensive-copy claim). -/
def copyBytes (s : Bytes) : Bytes := s

/-- Integer ceiling division `ceil(x, y)` as in the source. -/
def ceil (x y : Nat) : Nat :=
  let d := x / y
  if x % y = 0 then d else d + 1

/-- A `pointer` cell: wraps either a child node (by heap index) or a value. -/
inductive Ptr where
  | node (id : Nat)
  | val (v : Bytes)
deriving Repr, DecidableEq, Inhabited

/-- A B+ tree node.  `keys` has length `order-1` and `pointers` length
`order`; unused slots hold `none` (Go `nil`).  `keyNum` is the
authoritative number of live keys. -/
structure Node where
  leaf : Bool
  parent : Option Nat
  keys : List (Option Bytes)
  keyNum : Nat
  pointers : List (Option Ptr)
deriving Repr, DecidableEq, Inhabited

/-- The tree state: the node heap plus the `BPTree` struct fields. -/
structure BPTree where
  nodes : List Node
  root : Option Nat
  leftmost : Option Nat
  order : Nat
  size : Nat
  minKeyNum : Nat
deriving Repr, DecidableEq

/-- Read a node from the heap (out-of-range reads give the zero node). -/
def getN (t : BPTree) (id : Nat) : Node := t.nodes.getD id default

/-- Write a node back to the heap. -/
def setN (t : BPTree) (id : Nat) (n : Node) : BPTree :=
  { t with nodes := t.nodes.set id n }

/-- Allocate a fresh node, returning its index. -/
def allocN (t : BPTree) (n : Node) : BPTree × Nat :=
  ({ t with nodes := t.nodes ++ [n] }, t.nodes.length)

/-- Read key slot `i` (Go `n.keys[i]`, `none` = `nil`). -/
def Node.key (n : Node) (i : Nat) : Option Bytes := n.keys.getD i none

/-- Key slot `i` as the byte sequence `bytes.Compare` sees (nil = empty). -/
def Node.keyB (n : Node) (i : Nat) : Bytes := (n.key i).getD []

/-- Read pointer slot `i` (Go `n.pointers[i]`, `none` = `nil`). -/
def Node.ptr (n : Node) (i : Nat) : Option Ptr := n.pointers.getD i none

/-- Write key slot `i`. -/
def Node.setKey (n : Node) (i : Nat) (k : Option Bytes) : Node :=
  { n with keys := n.keys.set i k }

/-- Write pointer slot `i`. -/
def Node.setPtr (n : Node) (i : Nat) (p : Option Ptr) : Node :=
  { n with pointers := n.pointers.set i p }

/-- Go `copy(dst, src)`: overwrite the first `min |dst| |src|` entries of
`dst` with those of `src`, keep the rest of `dst`. -/
def goCopy {α : Type} (dst src : List α) : List α :=
  let m := min dst.length src.length
  src.take m ++ dst.drop m

/-- `p.asNode()`: the node index, or a fault for a value payload or nil. -/
def asNode : Option Ptr → Option Nat
  | some (.node id) => some id
  | _ => none

/-- `p.asValue()`: the value, or a fault for a node payload or nil. -/
def asValue : Option Ptr → Option Bytes
  | some (.val v) => some v
  | _ => none

/-- Inner loop of `keyPosition`: scan slots `i, i+1, ...` below `keyNum`
for an exact match.  The counter (always `keyNum - i`) makes the recursion
structural so that it reduces in the kernel. -/
def keyPositionGo (n : Node) (key : Bytes) (i : Nat) : Nat → Int
  | 0 => -1
  | left + 1 =>
    if i < n.keyNum then
      if compareBytes key (n.keyB i) = 0 then (i : Int)
      else keyPositionGo n key (i + 1) left
    else -1

/-- `n.keyPosition(key)`: position of the key among the live slots, -1 if
absent. -/
def Node.keyPosition (n : Node) (key : Bytes) : Int := keyPositionGo n key 0 n.keyNum

/-- While `j < stop`: `keys[j] = keys[j+1]`; the counter is `stop - j`. -/
def shiftKeysLeftGo (n : Node) (j : Nat) : Nat → Node
  | 0 => n
  | left + 1 => shiftKeysLeftGo (n.setKey j (n.key (j + 1))) (j + 1) left

/-- While `j < stop`: `keys[j] = keys[j+1]`. -/
def shiftKeysLeft (n : Node) (j stop : Nat) : Node := shiftKeysLeftGo n j (stop - j)

/-- While `j < stop`: `pointers[j] = pointers[j+1]`; counter `stop - j`. -/
def shiftPtrsLeftGo (n : Node) (j : Nat) : Nat → Node
  | 0 => n
  | left + 1 => shiftPtrsLeftGo (n.setPtr j (n.ptr (j + 1))) (j + 1) left

/-- While `j < stop`: `pointers[j] = pointers[j+1]`. -/
def shiftPtrsLeft (n : Node) (j stop : Nat) : Node := shiftPtrsLeftGo n j (stop - j)

/-- While `j > stop`: `keys[j] = keys[j-1]`, structurally on `j`. -/
def shiftKeysRight (n : Node) (j stop : Nat) : Node :=
  match j with
  | 0 => n
  | j' + 1 =>
    if stop < j' + 1 then shiftKeysRight (n.setKey (j' + 1) (n.key j')) j' stop
    else n

/-- While `j > stop`: `pointers[j] = pointers[j-1]`, structurally on `j`. -/
def shiftPtrsRight (n : Node) (j stop : Nat) : Node :=
  match j with
  | 0 => n
  | j' + 1 =>
    if stop < j' + 1 then shiftPtrsRight (n.setPtr (j' + 1) (n.ptr j')) j' stop
    else n

/-- `n.deleteAt(keyPosition, pointerPosition)`: delete the entry at the
position and shift the keys and the pointers. -/
def Node.deleteAt (n : Node) (keyPosition pointerPosition : Nat) : Node :=
  let n1 := shiftKeysLeft n keyPosition (n.keyNum - 1)
  let n2 := n1.setKey (n1.keyNum - 1) none
  let pointerNum := if n2.leaf then n2.keyNum else n2.keyNum + 1
  let n3 := shiftPtrsLeft n2 pointerPosition (pointerNum - 1)
  let n4 := n3.setPtr (pointerNum - 1) none
  { n4 with keyNum := n4.keyNum - 1 }

/-- Scan of `pointerPositionOf`: walk the pointer slots until a nil slot
(then -1) or the sought node; counter `pointers.length - pos`. -/
def pointerPositionGo (n : Node) (x : Nat) (pos : Nat) : Nat → Option Int
  | 0 => some (-1)
  | left + 1 =>
    if pos < n.pointers.length then
      match n.ptr pos with
      | none => some (-1)
      | some (.node id) =>
          if id = x then some (pos : Int) else pointerPositionGo n x (pos + 1) left
      | some (.val _) => none
    else some (-1)

/-- `n.pointerPositionOf(x)`: the pointer position of the given node,
-1 when not found; a fault if a scanned slot holds a value payload. -/
def Node.pointerPositionOf (n : Node) (x : Nat) : Option Int :=
  pointerPositionGo n x 0 n.pointers.length

/-- `n.insertAt(keyPosition, key, pointerPosition, pointer)`: shift the key
and pointer suffixes right by one and write the new entry. -/
def Node.insertAt (n : Node) (keyPosition : Nat) (key : Option Bytes)
    (pointerPosition : Nat) (p : Option Ptr) : Node :=
  let n1 := shiftKeysRight n n.keyNum keyPosition
  let pointerNum := if n1.leaf then n1.keyNum else n1.keyNum + 1
  let n2 := shiftPtrsRight n1 pointerNum pointerPosition
  let n3 := (n2.setKey keyPosition key).setPtr pointerPosition p
  { n3 with keyNum := n3.keyNum + 1 }

/-- `n.setNext(p)`: the last pointer slot holds the next-leaf pointer. -/
def Node.setNext (n : Node) (p : Option Ptr) : Node :=
  n.setPtr (n.pointers.length - 1) p

/-- `n.next()`: the pointer to the next leaf node. -/
def Node.next (n : Node) : Option Ptr := n.ptr (n.pointers.length - 1)

/-- `n.lastPointer()` (used by the iterator): the last pointer slot. -/
def Node.lastPointer (n : Node) : Option Ptr := n.ptr (n.pointers.length - 1)

/-- `n.append(key, p)` at heap level: write the key and pointer after the
live entries, and reparent the appended child for internal nodes. -/
def BPTree.nodeAppend (t : BPTree) (nid : Nat) (key : Option Bytes)
    (p : Option Ptr) : Option BPTree :=
  let n := getN t nid
  let keyPosition := n.keyNum
  let pointerPosition :=
    if !n.leaf && (n.ptr keyPosition).isSome then keyPosition + 1 else keyPosition
  let n1 := n.setKey keyPosition key
  let n2 := n1.setPtr pointerPosition p
  let t1 := setN t nid { n2 with keyNum := n2.keyNum + 1 }
  if n.leaf then some t1
  else do
    let cid ← asNode p
    some (setN t1 cid { getN t1 cid with parent := some nid })

/-- Loop of `copyFromRight`: append the live entries of `from` one by one;
the bound is re-read from the heap each iteration as in the source, the
extra counter only forces termination. -/
def copyFromRightLoop (t : BPTree) (nid fromId i : Nat) : Nat → Option BPTree
  | 0 => if i < (getN t fromId).keyNum then none else some t
  | fuel + 1 =>
    if i < (getN t fromId).keyNum then do
      let f := getN t fromId
      let t1 ← t.nodeAppend nid (f.key i) (f.ptr i)
      copyFromRightLoop t1 nid fromId (i + 1) fuel
    else some t

/-- `n.copyFromRight(from)`: copy the keys and the pointer from the given
node; leaves take over the next-leaf pointer, internal nodes take over the
last child and reparent it. -/
def BPTree.copyFromRight (t : BPTree) (nid fromId : Nat) : Option BPTree := do
  let t1 ← copyFromRightLoop t nid fromId 0 ((getN t fromId).keyNum + 1)
  let n := getN t1 nid
  let f := getN t1 fromId
  if n.leaf then
    some (setN t1 nid (n.setNext f.next))
  else
    let t2 := setN t1 nid (n.setPtr n.keyNum (f.ptr f.keyNum))
    do
      let cid ← asNode ((getN t2 nid).ptr (getN t2 nid).keyNum)
      some (setN t2 cid { getN t2 cid with parent := some nid })

/-- The routing scan shared by `findLeaf`, `putIntoParent` and
`putIntoParentAndSplit`, with counter `keyNum - pos`. -/
def scanLessGo (n : Node) (key : Bytes) (pos : Nat) : Nat → Nat
  | 0 => pos
  | left + 1 =>
    if pos < n.keyNum then
      if less key (n.keyB pos) then pos else scanLessGo n key (pos + 1) left
    else pos

/-- The routing scan: the first live position whose key is greater than
`key`, else `keyNum`. -/
def scanLessPos (n : Node) (key : Bytes) (pos : Nat) : Nat :=
  scanLessGo n key pos (n.keyNum - pos)

/-- Descent loop of `findLeaf`; the fuel bounds the number of hops. -/
def findLeafLoop (t : BPTree) (key : Bytes) (cur : Nat) (fuel : Nat) : Option Nat :=
  let n := getN t cur
  if n.leaf then some cur
  else
    match fuel with
    | 0 => none
    | fuel + 1 => do
      let c ← asNode (n.ptr (scanLessPos n key 0))
      findLeafLoop t key c fuel

/-- `t.findLeaf(key)`: the leaf that might contain the key (callers check
the root for nil first). -/
def BPTree.findLeaf (t : BPTree) (key : Bytes) : Option Nat :=
  match t.root with
  | none => none
  | some r => findLeafLoop t key r t.nodes.length

/-- The scan in `Get`, with counter `keyNum - i`. -/
def getScanGo (n : Node) (key : Bytes) (i : Nat) : Nat → Option (Option Bytes × Bool)
  | 0 => some (none, false)
  | left + 1 =>
    if i < n.keyNum then
      if compareBytes key (n.keyB i) = 0 then do
        let v ← asValue (n.ptr i)
        some (some v, true)
      else getScanGo n key (i + 1) left
    else some (none, false)

/-- The scan in `Get`: all live slots, exact comparison. -/
def getScan (n : Node) (key : Bytes) (i : Nat) : Option (Option Bytes × Bool) :=
  getScanGo n key i (n.keyNum - i)

/-- `t.Get(key)`: the stored value and a found flag. -/
def BPTree.Get (t : BPTree) (key : Bytes) : Option (Option Bytes × Bool) :=
  match t.root with
  | none => some (none, false)
  | some _ => do
    let leafId ← t.findLeaf key
    getScan (getN t leafId) key 0

/-- `t.initializeRoot(key, value)`: the first leaf/root of an empty tree;
the only place where the key is defensively copied. -/
def BPTree.initializeRoot (t : BPTree) (key value : Bytes) : BPTree :=
  let keys := (List.replicate (t.order - 1) (none : Option Bytes)).set 0 (some (copyBytes key))
  let pointers := (List.replicate t.order (none : Option Ptr)).set 0 (some (.val value))
  let (t1, rid) := allocN t
    { leaf := true, parent := none, keys := keys, keyNum := 1, pointers := pointers }
  { t1 with root := some rid, leftmost := some rid, size := t1.size + 1 }

/-- The scan at the head of `putIntoLeaf`, with counter `keyNum - i`. -/
def putScanGo (n : Node) (k : Bytes) (i : Nat) : Nat → Sum Nat Nat
  | 0 => Sum.inr i
  | left + 1 =>
    if i < n.keyNum then
      let cmp := compareBytes k (n.keyB i)
      if cmp = 0 then Sum.inl i
      else if cmp < 0 then Sum.inr i
      else putScanGo n k (i + 1) left
    else Sum.inr i

/-- The scan at the head of `putIntoLeaf`: `.inl i` is an exact match at
`i`, `.inr i` the insert position. -/
def putScanPos (n : Node) (k : Bytes) (i : Nat) : Sum Nat Nat :=
  putScanGo n k i (n.keyNum - i)

/-- The in-place insertion into a non-full leaf inside `putIntoLeaf`:
shift keys and pointers right of the position, then write the entry.
The key is stored as given (not copied). -/
def leafInsertInPlace (n : Node) (insertPos : Nat) (k v : Bytes) : Node :=
  let n1 := shiftPtrsRight (shiftKeysRight n n.keyNum insertPos) n.keyNum insertPos
  let n2 := (n1.setKey insertPos (some k)).setPtr insertPos (some (.val v))
  { n2 with keyNum := n2.keyNum + 1 }

/-- Downward cleanup loop of `putIntoLeafAndSplit`:
`keys[i] = nil; pointers[i] = nil` for `i` from the top down to `copyFrom`,
structurally on `i`. -/
def cleanupLeafLeft (n : Node) (i copyFrom : Nat) : Node :=
  match i with
  | 0 => if copyFrom = 0 then (n.setKey 0 none).setPtr 0 none else n
  | i' + 1 =>
    if copyFrom ≤ i' + 1 then
      cleanupLeafLeft ((n.setKey (i' + 1) none).setPtr (i' + 1) none) i' copyFrom
    else n

/-- Downward cleanup loop of `putIntoParentAndSplit`:
`keys[i] = nil; pointers[i+1] = nil` for `i` from the top down to
`copyFrom`, structurally on `i`. -/
def cleanupInternalLeft (n : Node) (i copyFrom : Nat) : Node :=
  match i with
  | 0 => if copyFrom = 0 then (n.setKey 0 none).setPtr 1 none else n
  | i' + 1 =>
    if copyFrom ≤ i' + 1 then
      cleanupInternalLeft ((n.setKey (i' + 1) none).setPtr (i' + 2) none) i' copyFrom
    else n

/-- `t.putIntoLeafAndSplit(n, insertPos, k, v)`: split the full leaf,
right-biased; the given node becomes the left node and keeps its heap slot.
Returns the left and right node indices. -/
def BPTree.putIntoLeafAndSplit (t : BPTree) (nid insertPos : Nat) (k v : Bytes) :
    BPTree × Nat × Nat :=
  let n := getN t nid
  let (t1, rid) := allocN t
    { leaf := true, parent := none, keys := List.replicate (t.order - 1) none,
      keyNum := 0, pointers := List.replicate t.order none }
  let middlePos := ceil n.keys.length 2
  let copyFrom := if insertPos < middlePos then middlePos - 1 else middlePos
  let right0 := getN t1 rid
  let right1 := { right0 with
    keys := goCopy right0.keys (n.keys.drop copyFrom),
    pointers := goCopy right0.pointers ((n.pointers.take (n.pointers.length - 1)).drop copyFrom) }
  let right2 := right1.setNext n.next
  let right3 := { right2 with keyNum := right2.keys.length - copyFrom }
  let left0 := { n with parent := none, keyNum := copyFrom }
  let left1 := cleanupLeafLeft left0 (left0.keys.length - 1) copyFrom
  let left2 := left1.setNext (some (.node rid))
  if insertPos < middlePos then
    let left3 := left2.insertAt insertPos (some k) insertPos (some (.val v))
    (setN (setN t1 rid right3) nid left3, nid, rid)
  else
    let right4 := right3.insertAt (insertPos - middlePos) (some k) (insertPos - middlePos) (some (.val v))
    (setN (setN t1 rid right4) nid left2, nid, rid)

/-- `t.putIntoParent(parent, k, l, r)`: insert the separator and child
references into a non-full parent and update the back-references. -/
def BPTree.putIntoParent (t : BPTree) (pid : Nat) (k : Option Bytes) (l r : Nat) : BPTree :=
  let parent := getN t pid
  let insertPos := scanLessPos parent (k.getD []) 0
  let p1 := parent.setPtr (parent.keyNum + 1) (parent.ptr parent.keyNum)
  let p2 := shiftPtrsRight (shiftKeysRight p1 p1.keyNum insertPos) p1.keyNum insertPos
  let p3 := ((p2.setKey insertPos k).setPtr insertPos (some (.node l))).setPtr
    (insertPos + 1) (some (.node r))
  let t1 := setN t pid { p3 with keyNum := p3.keyNum + 1 }
  let t2 := setN t1 l { getN t1 l with parent := some pid }
  setN t2 r { getN t2 r with parent := some pid }

/-- `t.putIntoNewRoot(key, l, r)`: a fresh root holding one separator. -/
def BPTree.putIntoNewRoot (t : BPTree) (key : Option Bytes) (l r : Nat) : BPTree :=
  let keys := (List.replicate (t.order - 1) (none : Option Bytes)).set 0 key
  let pointers := ((List.replicate t.order (none : Option Ptr)).set 0
    (some (.node l))).set 1 (some (.node r))
  let (t1, rootId) := allocN t
    { leaf := false, parent := none, keys := keys, keyNum := 1, pointers := pointers }
  let t2 := setN t1 l { getN t1 l with parent := some rootId }
  let t3 := setN t2 r { getN t2 r with parent := some rootId }
  { t3 with root := some rootId }

/-- The insertion of `(k, l, r)` into the chosen half inside
`putIntoParentAndSplit`. -/
def internalInsertKLR (n : Node) (insPos : Nat) (k : Option Bytes) (l r : Nat) : Node :=
  let n1 := n.setPtr (n.keyNum + 1) (n.ptr n.keyNum)
  let n2 := shiftPtrsRight (shiftKeysRight n1 n1.keyNum insPos) n1.keyNum insPos
  let n3 := ((n2.setKey insPos k).setPtr insPos (some (.node l))).setPtr
    (insPos + 1) (some (.node r))
  { n3 with keyNum := n3.keyNum + 1 }

/-- The shift-down loop in `putIntoParentAndSplit` that drops the promoted
middle key out of the right half; counter `stop - i`. -/
def shiftNodeDownGo (n : Node) (i : Nat) : Nat → Node
  | 0 => n
  | left + 1 =>
    shiftNodeDownGo ((n.setKey (i - 1) (n.key i)).setPtr (i - 1) (n.ptr i)) (i + 1) left

/-- The shift-down loop in `putIntoParentAndSplit` that drops the promoted
middle key out of the right half. -/
def shiftNodeDown (n : Node) (i stop : Nat) : Node := shiftNodeDownGo n i (stop - i)

/-- The pointer fix-up loops at the end of `putIntoParentAndSplit`: every
non-nil pointer of the owner is a child whose parent is reset. -/
def reparentList (t : BPTree) (ownerId : Nat) : List (Option Ptr) → Option BPTree
  | [] => some t
  | none :: rest => reparentList t ownerId rest
  | some (.node cid) :: rest =>
      reparentList (setN t cid { getN t cid with parent := some ownerId }) ownerId rest
  | some (.val _) :: _ => none

/-- `t.putIntoParentAndSplit(parent, k, l, r)`: split the full internal
parent, insert `(k, l, r)` into the proper half, promote the middle key and
return it with the two halves. -/
def BPTree.putIntoParentAndSplit (t : BPTree) (pid : Nat) (k : Option Bytes) (l r : Nat) :
    Option (BPTree × Option Bytes × Nat × Nat) := do
  let parent := getN t pid
  let insertPos := scanLessPos parent (k.getD []) 0
  let (t1, rid) := allocN t
    { leaf := false, parent := none, keys := List.replicate (t.order - 1) none,
      keyNum := 0, pointers := List.replicate t.order none }
  let middlePos := ceil parent.keys.length 2
  let copyFrom := if insertPos < middlePos then middlePos - 1 else middlePos
  let right0 := getN t1 rid
  let right1 := { right0 with
    keys := goCopy right0.keys (parent.keys.drop copyFrom),
    pointers := goCopy right0.pointers (parent.pointers.drop copyFrom) }
  let right2 := { right1 with keyNum := right1.keys.length - copyFrom }
  let left0 := { parent with keyNum := copyFrom }
  let left1 := cleanupInternalLeft left0 (left0.keys.length - 1) copyFrom
  let t2 := setN (setN t1 rid right2) pid left1
  let insId := if insertPos < middlePos then pid else rid
  let insPos := if insertPos < middlePos then insertPos else insertPos - middlePos
  let t3 := setN t2 insId (internalInsertKLR (getN t2 insId) insPos k l r)
  let t4 := setN t3 l { getN t3 l with parent := some insId }
  let t5 := setN t4 r { getN t4 r with parent := some insId }
  let rightK := getN t5 rid
  let middleKey := rightK.key 0
  let r1 := shiftNodeDown rightK 1 rightK.keyNum
  let r2 := r1.setPtr (r1.keyNum - 1) (r1.ptr r1.keyNum)
  let r3 := (r2.setPtr r2.keyNum none).setKey (r2.keyNum - 1) none
  let t6 := setN t5 rid { r3 with keyNum := r3.keyNum - 1 }
  let t7 ← reparentList t6 pid (getN t6 pid).pointers
  let t8 ← reparentList t7 rid (getN t7 rid).pointers
  some (t8, middleKey, pid, rid)

/-- The upward propagation loop in `putIntoLeaf` after a leaf split; the
fuel bounds the number of levels. -/
def putCascade (t : BPTree) (parentOpt : Option Nat) (insertKey : Option Bytes)
    (l r : Nat) : Nat → Option BPTree
  | 0 => none
  | fuel + 1 =>
    match parentOpt with
    | none => some (t.putIntoNewRoot insertKey l r)
    | some pid =>
      if (getN t pid).keyNum < (getN t pid).keys.length then
        some (t.putIntoParent pid insertKey l r)
      else do
        let (t1, mk, l1, r1) ← t.putIntoParentAndSplit pid insertKey l r
        putCascade t1 (getN t1 pid).parent mk l1 r1 fuel

/-- The full-leaf branch of `putIntoLeaf`: split the leaf, then propagate
the separator upward. -/
def putFullPath (t : BPTree) (nid insertPos : Nat) (k v : Bytes) : Option BPTree :=
  let parentOpt := (getN t nid).parent
  let (t1, l, r) := t.putIntoLeafAndSplit nid insertPos k v
  let insertKey := (getN t1 r).key 0
  putCascade t1 parentOpt insertKey l r (t1.nodes.length + 1)

/-- `t.putIntoLeaf(n, k, v)`: override on exact match, else insert,
splitting when the leaf is full; the size grows once per insertion. -/
def BPTree.putIntoLeaf (t : BPTree) (nid : Nat) (k v : Bytes) :
    Option ((Option Bytes × Bool) × BPTree) :=
  let n := getN t nid
  match putScanPos n k 0 with
  | .inl pos => do
      let oldValue ← asValue (n.ptr pos)
      some ((some oldValue, true), setN t nid (n.setPtr pos (some (.val v))))
  | .inr insertPos => do
      let t1 ←
        if n.keyNum < n.keys.length then
          some (setN t nid (leafInsertInPlace n insertPos k v))
        else
          putFullPath t nid insertPos k v
      some ((none, false), { t1 with size := t1.size + 1 })

/-- `t.Put(key, value)`: insert or override. -/
def BPTree.Put (t : BPTree) (key value : Bytes) : Option ((Option Bytes × Bool) × BPTree) :=
  match t.root with
  | none => some ((none, false), t.initializeRoot key value)
  | some _ => do
    let leafId ← t.findLeaf key
    t.putIntoLeaf leafId key value

/-- `findLeftmostKey(n)`: descend via the first child to the leftmost key. -/
def findLeftmostKey (t : BPTree) (nid : Nat) : Nat → Option (Option Bytes)
  | 0 => if (getN t nid).leaf then some ((getN t nid).key 0) else none
  | fuel + 1 =>
    let n := getN t nid
    if n.leaf then some (n.key 0)
    else do
      let c ← asNode (n.ptr 0)
      findLeftmostKey t c fuel

/-- Inner loop of `removeFromIndex` over one internal node: advance past
smaller keys; on an exact match overwrite the separator with the leftmost
key of the right subtree and re-test the same position. -/
def removeFromIndexScan (t : BPTree) (curId : Nat) (key : Bytes) (position : Nat) :
    Nat → Option (BPTree × Nat)
  | 0 => none
  | fuel + 1 =>
    let n := getN t curId
    if position < n.keyNum then
      let cmp := compareBytes key (n.keyB position)
      if cmp < 0 then some (t, position)
      else if cmp > 0 then removeFromIndexScan t curId key (position + 1) fuel
      else do
        let sub ← asNode (n.ptr (position + 1))
        let lk ← findLeftmostKey t sub t.nodes.length
        removeFromIndexScan (setN t curId (n.setKey position lk)) curId key position fuel
    else some (t, position)

/-- Descent loop of `removeFromIndex`. -/
def removeFromIndexLoop (t : BPTree) (curId : Nat) (key : Bytes) : Nat → Option BPTree
  | 0 => none
  | fuel + 1 =>
    let n := getN t curId
    if n.leaf then some t
    else do
      let (t1, position) ← removeFromIndexScan t curId key 0
        (n.keyNum + t.nodes.length + 2)
      let c ← asNode ((getN t1 curId).ptr position)
      removeFromIndexLoop t1 c key fuel

/-- `t.removeFromIndex(key)`: walk from the root to a leaf and replace any
separator equal to the deleted key by the leftmost key of its right
subtree. -/
def BPTree.removeFromIndex (t : BPTree) (key : Bytes) : Option BPTree :=
  match t.root with
  | none => none
  | some r => removeFromIndexLoop t r key (t.nodes.length + 1)

/-- Look up a sibling pointer slot: absent when the position is out of
range; a present slot must hold a node reference. -/
def siblingAt (t : BPTree) (pid : Nat) (pos : Int) (inRange : Bool) : Option (Option Nat) :=
  if inRange then
    match asNode ((getN t pid).ptr pos.toNat) with
    | none => none
    | some i => some (some i)
  else some none

/-- Does the sibling exist and hold more than `minKeyNum` keys? -/
def sibCanBorrow (t : BPTree) (sib : Option Nat) : Bool :=
  match sib with
  | some sid => (getN t sid).keyNum > t.minKeyNum
  | none => false

/-- Borrow from the left sibling in `rebalanceParentNode`: move the split
key down into the node and the sibling's last child across, move the
sibling's last key up. -/
def rebalParentBorrowLeft (t : BPTree) (nid pid lsid kppN : Nat) : Option BPTree :=
  let splitKey := (getN t pid).key kppN
  match asNode ((getN t lsid).ptr (getN t lsid).keyNum) with
  | none => none
  | some cid =>
    let t1 := setN t cid { getN t cid with parent := some nid }
    let t2 := setN t1 nid
      ((getN t1 nid).insertAt 0 splitKey 0 ((getN t1 lsid).ptr (getN t1 lsid).keyNum))
    let t3 := setN t2 pid
      ((getN t2 pid).setKey kppN ((getN t2 lsid).key ((getN t2 lsid).keyNum - 1)))
    some (setN t3 lsid
      ((getN t3 lsid).deleteAt ((getN t3 lsid).keyNum - 1) ((getN t3 lsid).keyNum)))

/-- Borrow from the right sibling in `rebalanceParentNode`. -/
def rebalParentBorrowRight (t : BPTree) (nid pid rsid skPos : Nat) : Option BPTree :=
  let splitKey := (getN t pid).key skPos
  match t.nodeAppend nid splitKey ((getN t rsid).ptr 0) with
  | none => none
  | some t1 =>
    let t2 := setN t1 pid ((getN t1 pid).setKey skPos ((getN t1 rsid).key 0))
    some (setN t2 rsid ((getN t2 rsid).deleteAt 0 0))

/-- Merge stage of `rebalanceParentNode`: pull the split key down into the
surviving node, merge, and drop the navigator entry from the parent. -/
def rebalParentMerge (t : BPTree) (nid pid kppN pppN rsPosN : Nat)
    (leftSib rightSib : Option Nat) : Option BPTree :=
  match leftSib with
  | some lsid =>
    let splitKey := (getN t pid).key kppN
    let ls := getN t lsid
    let t1 := setN t lsid { ls.setKey ls.keyNum splitKey with keyNum := ls.keyNum + 1 }
    match t1.copyFromRight lsid nid with
    | none => none
    | some t2 => some (setN t2 pid ((getN t2 pid).deleteAt kppN pppN))
  | none =>
    match rightSib with
    | some rsid =>
      let splitKey := (getN t pid).key kppN
      let nn := getN t nid
      let t1 := setN t nid { nn.setKey nn.keyNum splitKey with keyNum := nn.keyNum + 1 }
      match t1.copyFromRight nid rsid with
      | none => none
      | some t2 => some (setN t2 pid ((getN t2 pid).deleteAt kppN rsPosN))
    | none => some t

/-- One step of `rebalanceParentNode`: either the function returns
(`done`), or it falls through to the recursive call on the parent (`up`). -/
inductive RebalStep where
  | done (t : BPTree)
  | up (t : BPTree) (pid : Nat)

/-- The tree state carried by a rebalancing step. -/
def RebalStep.tree : RebalStep → BPTree
  | .done t => t
  | .up t _ => t

/-- The right-sibling and merge stages of `rebalanceParentNode`. -/
def rebalParentStage2 (t : BPTree) (nid pid : Nat) (ppp : Int) (kppN : Nat)
    (leftSib : Option Nat) : Option RebalStep :=
  let rightSibPos := ppp + 1
  match siblingAt t pid rightSibPos (decide (rightSibPos < (getN t pid).keyNum + 1)) with
  | none => none
  | some rightSib =>
    if sibCanBorrow t rightSib then
      match rightSib with
      | some rsid =>
        match rebalParentBorrowRight t nid pid rsid (rightSibPos - 1).toNat with
        | none => none
        | some t1 => some (.done t1)
      | none => none
    else
      match rebalParentMerge t nid pid kppN ppp.toNat rightSibPos.toNat leftSib rightSib with
      | none => none
      | some t5 => some (.up t5 pid)

/-- The body of `rebalanceParentNode` up to its recursive call. -/
def rebalanceParentStep (t : BPTree) (nid : Nat) : Option RebalStep :=
  let n := getN t nid
  match n.parent with
  | none =>
    if n.keyNum = 0 then
      match asNode (n.ptr 0) with
      | none => none
      | some newRoot =>
        let t1 := { t with root := some newRoot }
        some (.done (setN t1 newRoot { getN t1 newRoot with parent := none }))
    else some (.done t)
  | some pid =>
    if n.keyNum ≥ t.minKeyNum then some (.done t)
    else
      match (getN t pid).pointerPositionOf nid with
      | none => none
      | some ppp =>
        let kppN : Nat := (ppp - 1).toNat
        let leftSibPos := ppp - 1
        match siblingAt t pid leftSibPos (decide (leftSibPos ≥ 0)) with
        | none => none
        | some leftSib =>
          if sibCanBorrow t leftSib then
            match leftSib with
            | some lsid =>
              match rebalParentBorrowLeft t nid pid lsid kppN with
              | none => none
              | some t1 => some (.done t1)
            | none => none
          else rebalParentStage2 t nid pid ppp kppN leftSib

/-- `t.rebalanceParentNode(n)`: restore minimum occupancy of an internal
node by borrowing from or merging with a sibling, recursing upward; at the
root, collapse it when it has become empty.  The fuel bounds the recursion
depth. -/
def BPTree.rebalanceParentNode (t : BPTree) (nid : Nat) : Nat → Option BPTree
  | 0 => none
  | fuel + 1 =>
    match rebalanceParentStep t nid with
    | none => none
    | some (.done t1) => some t1
    | some (.up t5 pid) => BPTree.rebalanceParentNode t5 pid fuel

/-- Borrow from the left sibling in `rebalanceFromLeafNode`. -/
def rebalLeafBorrowLeft (t : BPTree) (nid pid lsid kppN : Nat) : BPTree :=
  let ls := getN t lsid
  let t1 := setN t nid
    ((getN t nid).insertAt 0 (ls.key (ls.keyNum - 1)) 0 (ls.ptr (ls.keyNum - 1)))
  let t2 := setN t1 lsid
    ((getN t1 lsid).deleteAt ((getN t1 lsid).keyNum - 1) ((getN t1 lsid).keyNum - 1))
  setN t2 pid ((getN t2 pid).setKey kppN ((getN t2 nid).key 0))

/-- Borrow from the right sibling in `rebalanceFromLeafNode`. -/
def rebalLeafBorrowRight (t : BPTree) (nid pid rsid skPos : Nat) : Option BPTree :=
  match t.nodeAppend nid ((getN t rsid).key 0) ((getN t rsid).ptr 0) with
  | none => none
  | some t1 =>
    let t2 := setN t1 rsid ((getN t1 rsid).deleteAt 0 0)
    some (setN t2 pid ((getN t2 pid).setKey skPos ((getN t2 rsid).key 0)))

/-- Merge stage of `rebalanceFromLeafNode`: merge with the first available
sibling and drop the navigator entry from the parent. -/
def rebalLeafMerge (t : BPTree) (nid pid kppN pppN rsPosN : Nat)
    (leftSib rightSib : Option Nat) : Option BPTree :=
  match leftSib with
  | some lsid =>
    match t.copyFromRight lsid nid with
    | none => none
    | some t1 => some (setN t1 pid ((getN t1 pid).deleteAt kppN pppN))
  | none =>
    match rightSib with
    | some rsid =>
      match t.copyFromRight nid rsid with
      | none => none
      | some t1 => some (setN t1 pid ((getN t1 pid).deleteAt kppN rsPosN))
    | none => some t

/-- The right-sibling and merge stages of `rebalanceFromLeafNode`; after a
merge the parent is rebalanced. -/
def rebalLeafStage2 (t : BPTree) (nid pid : Nat) (ppp : Int) (kppN : Nat)
    (leftSib : Option Nat) : Option BPTree :=
  let rightSibPos := ppp + 1
  match siblingAt t pid rightSibPos (decide (rightSibPos < (getN t pid).keyNum + 1)) with
  | none => none
  | some rightSib =>
    if sibCanBorrow t rightSib then
      match rightSib with
      | some rsid => rebalLeafBorrowRight t nid pid rsid (rightSibPos - 1).toNat
      | none => none
    else
      match rebalLeafMerge t nid pid kppN ppp.toNat rightSibPos.toNat leftSib rightSib with
      | none => none
      | some t5 => t5.rebalanceParentNode pid (t5.nodes.length + 1)

/-- `t.rebalanceFromLeafNode(n)`: restore minimum occupancy of a leaf by
borrowing from a sibling, else merge with one and rebalance the parent. -/
def BPTree.rebalanceFromLeafNode (t : BPTree) (nid : Nat) : Option BPTree :=
  match (getN t nid).parent with
  | none => none
  | some pid =>
    match (getN t pid).pointerPositionOf nid with
    | none => none
    | some ppp =>
      let kppN : Nat := (ppp - 1).toNat
      let leftSibPos := ppp - 1
      match siblingAt t pid leftSibPos (decide (leftSibPos ≥ 0)) with
      | none => none
      | some leftSib =>
        if sibCanBorrow t leftSib then
          match leftSib with
          | some lsid => some (rebalLeafBorrowLeft t nid pid lsid kppN)
          | none => none
        else rebalLeafStage2 t nid pid ppp kppN leftSib

/-- `t.deleteAtLeafAndRebalance(n, key)`: physically remove the entry from
the leaf, handle the root case, rebalance on underflow, then re-derive
separators in the index. -/
def BPTree.deleteAtLeafAndRebalance (t : BPTree) (nid : Nat) (key : Bytes) :
    Option ((Option Bytes × Bool) × BPTree) :=
  let n := getN t nid
  let keyPos := n.keyPosition key
  if keyPos = -1 then some ((none, false), t)
  else
    match asValue (n.ptr keyPos.toNat) with
    | none => none
    | some value =>
      let t1 := setN t nid (n.deleteAt keyPos.toNat keyPos.toNat)
      match n.parent with
      | none =>
        if (getN t1 nid).keyNum = 0 then some ((some value, true), { t1 with root := none })
        else some ((some value, true), t1)
      | some _ =>
        match
          (if (getN t1 nid).keyNum < t.minKeyNum then t1.rebalanceFromLeafNode nid
           else some t1) with
        | none => none
        | some t2 =>
          match t2.removeFromIndex key with
          | none => none
          | some t3 => some ((some value, true), t3)

/-- `t.Delete(key)`: the deleted value and a deleted flag. -/
def BPTree.Delete (t : BPTree) (key : Bytes) : Option ((Option Bytes × Bool) × BPTree) :=
  match t.root with
  | none => some ((none, false), t)
  | some _ =>
    match t.findLeaf key with
    | none => none
    | some leafId =>
      match t.deleteAtLeafAndRebalance leafId key with
      | none => none
      | some ((value, deleted), t1) =>
        if !deleted then some ((none, false), t1)
        else some ((value, true), { t1 with size := t1.size - 1 })

/-- `t.Size()`. -/
def BPTree.Size (t : BPTree) : Nat := t.size

/-- The stateful iterator: the current leaf reference and in-leaf index. -/
structure Iterator where
  next : Option Nat
  i : Nat
deriving Repr, DecidableEq

/-- `t.Iterator()`: start at the cached leftmost leaf, index 0. -/
def BPTree.Iterator (t : BPTree) : Iterator := { next := t.leftmost, i := 0 }

/-- `it.HasNext()`: a non-nil leaf reference and an index below the leaf's
key count. -/
def Iterator.HasNext (it : Iterator) (t : BPTree) : Bool :=
  match it.next with
  | none => false
  | some id => it.i < (getN t id).keyNum

/-- `it.Next()`: fault when `HasNext` is false; else yield the entry at the
current index and advance, hopping to the chained next leaf (or
terminating) when the leaf is exhausted. -/
def Iterator.Next (it : Iterator) (t : BPTree) :
    Option ((Option Bytes × Bytes) × Iterator) :=
  if !(it.HasNext t) then none
  else
    match it.next with
    | none => none
    | some id =>
      let n := getN t id
      let key := n.key it.i
      match asValue (n.ptr it.i) with
      | none => none
      | some value =>
        if it.i + 1 = n.keyNum then
          match n.lastPointer with
          | none => some ((key, value), { next := none, i := 0 })
          | some p =>
            match asNode (some p) with
            | none => none
            | some nxt => some ((key, value), { next := some nxt, i := 0 })
        else some ((key, value), { next := it.next, i := it.i + 1 })

/-- Drain an iterator, collecting the yielded pairs; fuel bounds the number
of `Next` calls. -/
def drainIterator (t : BPTree) (it : Iterator) : Nat → Option (List (Option Bytes × Bytes))
  | 0 => if it.HasNext t then none else some []
  | fuel + 1 =>
    if it.HasNext t then do
      let (kv, it1) ← it.Next t
      let rest ← drainIterator t it1 fuel
      some (kv :: rest)
    else some []

/-- `t.ForEach(action)`: the ascending list of pairs the visitor receives. -/
def BPTree.ForEach (t : BPTree) : Option (List (Option Bytes × Bytes)) :=
  drainIterator t t.Iterator ((t.nodes.map Node.keyNum).sum + t.nodes.length + 1)

/-- `New(Order(order))`: a fresh tree; orders below 3 are a configuration
error. -/
def New (order : Nat) : Option BPTree :=
  if order < 3 then none
  else some { nodes := [], root := none, leftmost := none, order := order,
              size := 0, minKeyNum := ceil order 2 - 1 }

/-- All pairs of live keys of a node are strictly ascending (spec invariant 3,
restricted to one node). -/
def nodeSortedB (n : Node) : Bool :=
  (List.range n.keyNum).all (fun i => (List.range i).all (fun j => less (n.keyB j) (n.keyB i)))

/-- Every heap node has strictly ascending live keys. -/
def allNodesSorted (t : BPTree) : Bool := t.nodes.all nodeSortedB

/-- A leaf as the iterator relies on it: every live pointer slot holds a
value payload and the last slot is nil or the next-leaf reference. -/
def iterLeafOKB (n : Node) : Bool :=
  ((List.range n.keyNum).all (fun j => (asValue (n.ptr j)).isSome)) &&
  (match n.lastPointer with
   | none => true
   | some (.node _) => true
   | some (.val _) => false)

/-- Buffer store for the defensive-copy analysis: an index is a Go slice
identity, its entry the slice content. -/
structure Bufs where
  bufs : List Bytes
deriving Repr, DecidableEq

/-- Dereference a slice. -/
def readBuf (B : Bufs) (r : Nat) : Bytes := B.bufs.getD r []

/-- External mutation of a caller-owned slice. -/
def writeBuf (B : Bufs) (r : Nat) (x : Bytes) : Bufs := { bufs := B.bufs.set r x }

/-- `copyBytes` with slice identity: allocate a fresh slice with the same
content. -/
def copyBytesR (B : Bufs) (r : Nat) : Bufs × Nat :=
  ({ bufs := B.bufs ++ [readBuf B r] }, B.bufs.length)

/-- A leaf whose key slots are slice references: the leaf layout of the
source re-embedded for the defensive-copy analysis (values inlined). -/
structure RefLeaf where
  keys : List (Option Nat)
  keyNum : Nat
  values : List (Option Bytes)
deriving Repr, DecidableEq

/-- The bytes `compare` sees for key slot `i` of a reference leaf. -/
def RefLeaf.keyB (B : Bufs) (n : RefLeaf) (i : Nat) : Bytes :=
  match n.keys.getD i none with
  | none => []
  | some r => readBuf B r

/-- `initializeRoot` with slice identity (the fresh root leaf's key and
value arrays): the key is stored through `copyBytes`. -/
def initializeRootR (order : Nat) (B : Bufs) (keyRef : Nat) (v : Bytes) : Bufs × RefLeaf :=
  let p := copyBytesR B keyRef
  (p.1, { keys := (List.replicate (order - 1) none).set 0 (some p.2),
          keyNum := 1,
          values := (List.replicate order none).set 0 (some v) })

/-- The scan at the head of `putIntoLeaf` over reference keys; counter
`keyNum - i`. -/
def putScanGoR (B : Bufs) (n : RefLeaf) (k : Bytes) (i : Nat) : Nat → Sum Nat Nat
  | 0 => Sum.inr i
  | left + 1 =>
    if i < n.keyNum then
      let cmp := compareBytes k (n.keyB B i)
      if cmp = 0 then Sum.inl i
      else if cmp < 0 then Sum.inr i
      else putScanGoR B n k (i + 1) left
    else Sum.inr i

/-- The scan at the head of `putIntoLeaf`, over reference keys. -/
def putScanPosR (B : Bufs) (n : RefLeaf) (k : Bytes) (i : Nat) : Sum Nat Nat :=
  putScanGoR B n k i (n.keyNum - i)

/-- While `j > stop`: `slots[j] = slots[j-1]`, structurally on `j`. -/
def shiftSlotsRight {α : Type} (l : List (Option α)) (j stop : Nat) : List (Option α) :=
  match j with
  | 0 => l
  | j' + 1 =>
    if stop < j' + 1 then shiftSlotsRight (l.set (j' + 1) (l.getD j' none)) j' stop
    else l

/-- `putIntoLeaf` with slice identity, non-full leaf: on the insert path the
caller's key reference is stored as is (`n.keys[insertPos] = k`, no
`copyBytes`); an override replaces only the value.  The full-leaf path
(split) stores the reference equally uncopied via `insertAt` and is outside
this model (`none`). -/
def putIntoLeafR (B : Bufs) (n : RefLeaf) (kRef : Nat) (v : Bytes) : Option RefLeaf :=
  match putScanPosR B n (readBuf B kRef) 0 with
  | .inl pos => some { n with values := n.values.set pos (some v) }
  | .inr insertPos =>
    if n.keyNum < n.keys.length then
      some { keys := (shiftSlotsRight n.keys n.keyNum insertPos).set insertPos (some kRef),
             keyNum := n.keyNum + 1,
             values := (shiftSlotsRight n.values n.keyNum insertPos).set insertPos (some v) }
    else none

/-- A one-key order-3 tree: the result of `New(Order(3))` then `Put([1], [7])`. -/
def exTree1 : BPTree :=
  { nodes := [{ leaf := true, parent := none, keys := [some [1], none],
                keyNum := 1, pointers := [some (.val [7]), none, none] }],
    root := some 0, leftmost := some 0, order := 3, size := 1, minKeyNum := 1 }

/-- A two-key order-3 tree (a full root leaf): `Put([1],[7])`, `Put([3],[8])`. -/
def exTree2 : BPTree :=
  { nodes := [{ leaf := true, parent := none, keys := [some [1], some [3]],
                keyNum := 2, pointers := [some (.val [7]), some (.val [8]), none] }],
    root := some 0, leftmost := some 0, order := 3, size := 2, minKeyNum := 1 }

/-- The order-3 tree after `Put([1],[7])`, `Put([3],[8])`, `Put([2],[9])`:
a root with separator `[2]` over two chained leaves. -/
def exTree3 : BPTree :=
  { nodes := [{ leaf := true, parent := some 2, keys := [some [1], none],
                keyNum := 1, pointers := [some (.val [7]), none, some (.node 1)] },
              { leaf := true, parent := some 2, keys := [some [2], some [3]],
                keyNum := 2, pointers := [some (.val [9]), some (.val [8]), none] },
              { leaf := false, parent := none, keys := [some [2], none],
                keyNum := 1, pointers := [some (.node 0), some (.node 1), none] }],
    root := some 2, leftmost := some 0, order := 3, size := 3, minKeyNum := 1 }

theorem compareBytes_eq_zero_iff : ∀ {x y : Bytes}, compareBytes x y = 0 ↔ x = y
  | [], [] => by simp [compareBytes]
  | [], _ :: _ => by simp [compareBytes]
  | _ :: _, [] => by simp [compareBytes]
  | a :: xs, b :: ys => by
    have ih := @compareBytes_eq_zero_iff xs ys
    simp only [compareBytes]
    split_ifs with h1 h2
    · constructor
      · intro h; exact absurd h (by decide)
      · rintro h; cases h; omega
    · constructor
      · intro h; exact absurd h (by decide)
      · rintro h; cases h; omega
    · have hab : a = b := by omega
      subst hab
      simp [ih]

theorem compareBytes_pos_of_neg : ∀ {x y : Bytes}, compareBytes x y < 0 → 0 < compareBytes y x
  | [], [] => by simp [compareBytes]
  | [], _ :: _ => by simp [compareBytes]
  | _ :: _, [] => by simp [compareBytes]
  | a :: xs, b :: ys => by
    intro h
    have ih := @compareBytes_pos_of_neg xs ys
    simp only [compareBytes] at h ⊢
    by_cases h1 : a < b
    · have h2 : ¬ b < a := by omega
      simp [h1, h2]
    · by_cases h2 : b < a
      · simp [h1, h2] at h
      · simp [h1, h2] at h ⊢
        exact ih h

theorem getScanGo_absent {n : Node} {k : Bytes} :
    ∀ fuel i, getScanGo n k i fuel = some (none, false) →
      ∀ j, i ≤ j → j < n.keyNum → j < i + fuel → compareBytes k (n.keyB j) ≠ 0 := by
  intro fuel
  induction fuel with
  | zero => intro i _ j hij _ hjf; omega
  | succ fuel ih =>
    intro i hscan j hij hj hjf
    simp only [getScanGo] at hscan
    by_cases hi : i < n.keyNum
    · simp only [hi, if_true] at hscan
      by_cases hc : compareBytes k (n.keyB i) = 0
      · simp only [hc, if_true] at hscan
        cases hv : asValue (n.ptr i) <;> simp [hv] at hscan
      · simp only [hc, if_false] at hscan
        rcases Nat.eq_or_lt_of_le hij with rfl | hlt
        · exact hc
        · exact ih (i + 1) hscan j (by omega) hj (by omega)
    · omega

theorem getScan_absent {n : Node} {k : Bytes} (h : getScan n k 0 = some (none, false)) :
    ∀ j, j < n.keyNum → compareBytes k (n.keyB j) ≠ 0 :=
  fun j hj => getScanGo_absent (n.keyNum - 0) 0 h j (by omega) hj (by omega)

theorem keyPositionGo_neg {n : Node} {k : Bytes} :
    ∀ fuel i,
      (∀ j, i ≤ j → j < n.keyNum → compareBytes k (n.keyB j) ≠ 0) →
      keyPositionGo n k i fuel = -1 := by
  intro fuel
  induction fuel with
  | zero => intro i _; rfl
  | succ fuel ih =>
    intro i habs
    simp only [keyPositionGo]
    by_cases hi : i < n.keyNum
    · have hc := habs i (by omega) hi
      simp only [hi, if_true, hc, if_false]
      exact ih (i + 1) (fun j h1 h2 => habs j (by omega) h2)
    · simp [hi]

/-- C6: deleting a key the tree does not store (the empty tree included)
returns `(absent, deleted=false)`, leaves the whole tree state unchanged,
and faults nowhere: absence is reported only through the flag. -/
theorem Delete_absent_no_mutation (t : BPTree) (k : Bytes)
    (h : t.Get k = some (none, false)) :
    t.Delete k = some ((none, false), t) := by
  unfold BPTree.Get at h
  unfold BPTree.Delete
  cases hr : t.root with
  | none => rfl
  | some r =>
    rw [hr] at h
    simp only [Option.bind_eq_bind] at h
    obtain ⟨leafId, hfl, hscan⟩ := Option.bind_eq_some.mp h
    have habs := getScan_absent hscan
    have hkp : (getN t leafId).keyPosition k = -1 :=
      keyPositionGo_neg (getN t leafId).keyNum 0 (fun j _ hj => habs j hj)
    unfold BPTree.deleteAtLeafAndRebalance
    simp [hfl, hkp, Node.keyPosition] at *
    simp [hkp]

/-- Witness for C6: a concrete tree storing only key `[1]` and the absent
key `[2]`. -/
theorem Delete_absent_no_mutation_witness :
    exTree1.Get [2] = some (none, false) ∧
    exTree1.Delete [2] = some ((none, false), exTree1) :=
  ⟨by decide, Delete_absent_no_mutation exTree1 [2] (by decide)⟩

theorem setN_size (t : BPTree) (id : Nat) (n : Node) : (setN t id n).size = t.size := rfl

theorem initializeRoot_size (t : BPTree) (k v : Bytes) :
    (t.initializeRoot k v).size = t.size + 1 := rfl

theorem nodeAppend_size {t t' : BPTree} {nid : Nat} {k : Option Bytes} {p : Option Ptr}
    (h : t.nodeAppend nid k p = some t') : t'.size = t.size := by
  simp only [BPTree.nodeAppend] at h
  split at h
  · cases h; rfl
  · obtain ⟨cid, _, h2⟩ := Option.bind_eq_some.mp h
    cases h2; rfl

theorem copyFromRightLoop_size :
    ∀ (fuel : Nat) (t t' : BPTree) (nid fid i : Nat),
      copyFromRightLoop t nid fid i fuel = some t' → t'.size = t.size := by
  intro fuel
  induction fuel with
  | zero =>
    intro t t' nid fid i h
    unfold copyFromRightLoop at h
    split at h
    · cases h
    · cases h; rfl
  | succ fuel ih =>
    intro t t' nid fid i h
    unfold copyFromRightLoop at h
    split at h
    · obtain ⟨t1, h1, h2⟩ := Option.bind_eq_some.mp h
      rw [ih t1 t' nid fid (i + 1) h2, nodeAppend_size h1]
    · cases h; rfl

theorem copyFromRight_size {t t' : BPTree} {nid fid : Nat}
    (h : t.copyFromRight nid fid = some t') : t'.size = t.size := by
  unfold BPTree.copyFromRight at h
  obtain ⟨t1, h1, h2⟩ := Option.bind_eq_some.mp h
  have hs1 := copyFromRightLoop_size _ _ _ _ _ _ h1
  dsimp only at h2
  split at h2
  · cases h2; simpa using hs1
  · obtain ⟨cid, _, h3⟩ := Option.bind_eq_some.mp h2
    cases h3; simpa using hs1

theorem reparentList_size :
    ∀ (l : List (Option Ptr)) (t t' : BPTree) (o : Nat),
      reparentList t o l = some t' → t'.size = t.size := by
  intro l
  induction l with
  | nil => intro t t' o h; cases h; rfl
  | cons hd rest ih =>
    intro t t' o h
    match hd with
    | none => exact ih t t' o h
    | some (.node cid) => simpa using ih _ t' o h
    | some (.val _) => cases h

theorem putIntoLeafAndSplit_size (t : BPTree) (nid p : Nat) (k v : Bytes) :
    (t.putIntoLeafAndSplit nid p k v).1.size = t.size := by
  unfold BPTree.putIntoLeafAndSplit
  dsimp only
  split <;> rfl

theorem putIntoParent_size (t : BPTree) (pid : Nat) (k : Option Bytes) (l r : Nat) :
    (t.putIntoParent pid k l r).size = t.size := rfl

theorem putIntoNewRoot_size (t : BPTree) (k : Option Bytes) (l r : Nat) :
    (t.putIntoNewRoot k l r).size = t.size := rfl

theorem putIntoParentAndSplit_size {t t' : BPTree} {pid : Nat} {k k' : Option Bytes}
    {l r l' r' : Nat} (h : t.putIntoParentAndSplit pid k l r = some (t', k', l', r')) :
    t'.size = t.size := by
  unfold BPTree.putIntoParentAndSplit at h
  dsimp only at h
  obtain ⟨t7, h7, h8⟩ := Option.bind_eq_some.mp h
  obtain ⟨t8, h8a, h8b⟩ := Option.bind_eq_some.mp h8
  cases h8b
  rw [reparentList_size _ _ _ _ h8a, reparentList_size _ _ _ _ h7]
  rfl

theorem putCascade_size :
    ∀ (fuel : Nat) (t t' : BPTree) (po : Option Nat) (ik : Option Bytes) (l r : Nat),
      putCascade t po ik l r fuel = some t' → t'.size = t.size := by
  intro fuel
  induction fuel with
  | zero => intro t t' po ik l r h; cases h
  | succ fuel ih =>
    intro t t' po ik l r h
    unfold putCascade at h
    match po with
    | none => cases h; exact putIntoNewRoot_size t ik l r
    | some pid =>
      dsimp only at h
      split at h
      · cases h; exact putIntoParent_size t pid ik l r
      · obtain ⟨⟨t1, mk, l1, r1⟩, h1, h2⟩ := Option.bind_eq_some.mp h
        rw [ih t1 t' _ mk l1 r1 h2, putIntoParentAndSplit_size h1]

theorem putFullPath_size {t t' : BPTree} {nid pos : Nat} {k v : Bytes}
    (h : putFullPath t nid pos k v = some t') : t'.size = t.size := by
  unfold putFullPath at h
  dsimp only at h
  rcases hsp : t.putIntoLeafAndSplit nid pos k v with ⟨t1, l, r⟩
  rw [hsp] at h
  rw [putCascade_size _ _ _ _ _ _ _ h]
  have hs := putIntoLeafAndSplit_size t nid pos k v
  rw [hsp] at hs
  exact hs

theorem rebalParentBorrowLeft_size {t t' : BPTree} {nid pid lsid kppN : Nat}
    (h : rebalParentBorrowLeft t nid pid lsid kppN = some t') : t'.size = t.size := by
  simp only [rebalParentBorrowLeft] at h
  split at h
  · cases h
  · cases h; rfl

theorem rebalParentBorrowRight_size {t t' : BPTree} {nid pid rsid skPos : Nat}
    (h : rebalParentBorrowRight t nid pid rsid skPos = some t') : t'.size = t.size := by
  simp only [rebalParentBorrowRight] at h
  split at h
  · cases h
  · next t1 h1 =>
    cases h
    simpa using nodeAppend_size h1

theorem rebalParentMerge_size {t t' : BPTree} {nid pid kppN pppN rsPosN : Nat}
    {leftSib rightSib : Option Nat}
    (h : rebalParentMerge t nid pid kppN pppN rsPosN leftSib rightSib = some t') :
    t'.size = t.size := by
  simp only [rebalParentMerge] at h
  split at h
  · split at h
    · cases h
    · next t2 h2 =>
      cases h
      simpa using copyFromRight_size h2
  · split at h
    · split at h
      · cases h
      · next t2 h2 =>
        cases h
        simpa using copyFromRight_size h2
    · cases h; rfl

theorem rebalParentStage2_size {t : BPTree} {nid pid : Nat} {ppp : Int} {kppN : Nat}
    {leftSib : Option Nat} {step : RebalStep}
    (h : rebalParentStage2 t nid pid ppp kppN leftSib = some step) :
    step.tree.size = t.size := by
  simp only [rebalParentStage2] at h
  split at h
  · cases h
  · split at h
    · split at h
      · split at h
        · cases h
        · next t1 h1 =>
          cases h
          exact rebalParentBorrowRight_size h1
      · cases h
    · split at h
      · cases h
      · next t5 h5 =>
        cases h
        exact rebalParentMerge_size h5

theorem rebalanceParentStep_size {t : BPTree} {nid : Nat} {step : RebalStep}
    (h : rebalanceParentStep t nid = some step) : step.tree.size = t.size := by
  simp only [rebalanceParentStep] at h
  split at h
  · split at h
    · split at h
      · cases h
      · cases h; rfl
    · cases h; rfl
  · split at h
    · cases h; rfl
    · split at h
      · cases h
      · split at h
        · cases h
        · split at h
          · split at h
            · split at h
              · cases h
              · next t1 h1 =>
                cases h
                exact rebalParentBorrowLeft_size h1
            · cases h
          · exact rebalParentStage2_size h

theorem rebalanceParentNode_size :
    ∀ (fuel : Nat) (t t' : BPTree) (nid : Nat),
      t.rebalanceParentNode nid fuel = some t' → t'.size = t.size := by
  intro fuel
  induction fuel with
  | zero => intro t t' nid h; cases h
  | succ fuel ih =>
    intro t t' nid h
    unfold BPTree.rebalanceParentNode at h
    split at h
    · cases h
    · next h1 =>
      cases h
      simpa using rebalanceParentStep_size h1
    · next t5 pid h1 =>
      have := rebalanceParentStep_size h1
      rw [ih t5 t' pid h]
      simpa using this

theorem rebalLeafBorrowLeft_size (t : BPTree) (nid pid lsid kppN : Nat) :
    (rebalLeafBorrowLeft t nid pid lsid kppN).size = t.size := rfl

theorem rebalLeafBorrowRight_size {t t' : BPTree} {nid pid rsid skPos : Nat}
    (h : rebalLeafBorrowRight t nid pid rsid skPos = some t') : t'.size = t.size := by
  simp only [rebalLeafBorrowRight] at h
  split at h
  · cases h
  · next t1 h1 =>
    cases h
    simpa using nodeAppend_size h1

theorem rebalLeafMerge_size {t t' : BPTree} {nid pid kppN pppN rsPosN : Nat}
    {leftSib rightSib : Option Nat}
    (h : rebalLeafMerge t nid pid kppN pppN rsPosN leftSib rightSib = some t') :
    t'.size = t.size := by
  simp only [rebalLeafMerge] at h
  split at h
  · split at h
    · cases h
    · next t1 h1 =>
      cases h
      simpa using copyFromRight_size h1
  · split at h
    · split at h
      · cases h
      · next t1 h1 =>
        cases h
        simpa using copyFromRight_size h1
    · cases h; rfl

theorem rebalLeafStage2_size {t t' : BPTree} {nid pid : Nat} {ppp : Int} {kppN : Nat}
    {leftSib : Option Nat}
    (h : rebalLeafStage2 t nid pid ppp kppN leftSib = some t') : t'.size = t.size := by
  simp only [rebalLeafStage2] at h
  split at h
  · cases h
  · split at h
    · split at h
      · exact rebalLeafBorrowRight_size h
      · cases h
    · split at h
      · cases h
      · next t5 h5 =>
        rw [rebalanceParentNode_size _ _ _ _ h]
        exact rebalLeafMerge_size h5

theorem rebalanceFromLeafNode_size {t t' : BPTree} {nid : Nat}
    (h : t.rebalanceFromLeafNode nid = some t') : t'.size = t.size := by
  simp only [BPTree.rebalanceFromLeafNode] at h
  split at h
  · cases h
  · split at h
    · cases h
    · split at h
      · cases h
      · split at h
        · split at h
          · cases h; rfl
          · cases h
        · exact rebalLeafStage2_size h

theorem removeFromIndexScan_size :
    ∀ (fuel : Nat) (t t' : BPTree) (cid : Nat) (k : Bytes) (pos pos' : Nat),
      removeFromIndexScan t cid k pos fuel = some (t', pos') → t'.size = t.size := by
  intro fuel
  induction fuel with
  | zero => intro t t' cid k pos pos' h; cases h
  | succ fuel ih =>
    intro t t' cid k pos pos' h
    unfold removeFromIndexScan at h
    dsimp only at h
    split at h
    · split at h
      · cases h; rfl
      · split at h
        · exact ih t t' cid k (pos + 1) pos' h
        · obtain ⟨sub, _, h2⟩ := Option.bind_eq_some.mp h
          obtain ⟨lk, _, h3⟩ := Option.bind_eq_some.mp h2
          rw [ih _ t' cid k pos pos' h3]
          rfl
    · cases h; rfl

theorem removeFromIndexLoop_size :
    ∀ (fuel : Nat) (t t' : BPTree) (cid : Nat) (k : Bytes),
      removeFromIndexLoop t cid k fuel = some t' → t'.size = t.size := by
  intro fuel
  induction fuel with
  | zero => intro t t' cid k h; cases h
  | succ fuel ih =>
    intro t t' cid k h
    unfold removeFromIndexLoop at h
    dsimp only at h
    split at h
    · cases h; rfl
    · obtain ⟨⟨t1, pos⟩, h1, h2⟩ := Option.bind_eq_some.mp h
      obtain ⟨c, _, h3⟩ := Option.bind_eq_some.mp h2
      rw [ih t1 t' c k h3]
      exact removeFromIndexScan_size _ _ _ _ _ _ _ h1

theorem removeFromIndex_size {t t' : BPTree} {k : Bytes}
    (h : t.removeFromIndex k = some t') : t'.size = t.size := by
  unfold BPTree.removeFromIndex at h
  split at h
  · cases h
  · exact removeFromIndexLoop_size _ _ _ _ _ h

theorem deleteAtLeafAndRebalance_size {t t' : BPTree} {nid : Nat} {key : Bytes}
    {res : Option Bytes × Bool}
    (h : t.deleteAtLeafAndRebalance nid key = some (res, t')) : t'.size = t.size := by
  simp only [BPTree.deleteAtLeafAndRebalance] at h
  split at h
  · cases h; rfl
  · split at h
    · cases h
    · split at h
      · split at h
        · cases h; rfl
        · cases h; rfl
      · split at h
        · cases h
        · next t2 h2 =>
          split at h
          · cases h
          · next t3 h3 =>
            cases h
            rw [removeFromIndex_size h3]
            split at h2
            · rw [rebalanceFromLeafNode_size h2]
              rfl
            · cases h2; rfl

theorem getScanGo_found {n : Node} {k : Bytes} :
    ∀ fuel i v0, getScanGo n k i fuel = some (some v0, true) →
      ∃ m, i ≤ m ∧ m < n.keyNum ∧ compareBytes k (n.keyB m) = 0 ∧
        asValue (n.ptr m) = some v0 ∧
        ∀ j, i ≤ j → j < m → compareBytes k (n.keyB j) ≠ 0 := by
  intro fuel
  induction fuel with
  | zero => intro i v0 h; cases h
  | succ fuel ih =>
    intro i v0 h
    simp only [getScanGo] at h
    by_cases hi : i < n.keyNum
    · simp only [hi, if_true] at h
      by_cases hc : compareBytes k (n.keyB i) = 0
      · simp only [hc, if_true] at h
        obtain ⟨v, hv, heq⟩ := Option.bind_eq_some.mp h
        cases heq
        exact ⟨i, Nat.le_refl i, hi, hc, hv, fun j h1 h2 => by omega⟩
      · simp only [hc, if_false] at h
        obtain ⟨m, h1, h2, h3, h4, h5⟩ := ih (i + 1) v0 h
        refine ⟨m, by omega, h2, h3, h4, fun j hj1 hj2 => ?_⟩
        rcases Nat.eq_or_lt_of_le hj1 with rfl | hlt
        · exact hc
        · exact h5 j (by omega) hj2
    · simp [hi] at h
    
theorem putScanGo_inr {n : Node} {k : Bytes} :
    ∀ fuel i, (∀ j, i ≤ j → j < n.keyNum → compareBytes k (n.keyB j) ≠ 0) →
      ∃ p, putScanGo n k i fuel = Sum.inr p := by
  intro fuel
  induction fuel with
  | zero => intro i _; exact ⟨i, rfl⟩
  | succ fuel ih =>
    intro i habs
    simp only [putScanGo]
    by_cases hi : i < n.keyNum
    · have hc := habs i (Nat.le_refl i) hi
      simp only [hi, if_true, hc, if_false]
      by_cases hlt : compareBytes k (n.keyB i) < 0
      · exact ⟨i, by simp [hlt]⟩
      · simp only [hlt, if_false]
        exact ih (i + 1) (fun j h1 h2 => habs j (by omega) h2)
    · exact ⟨i, by simp [hi]⟩

theorem nodeSortedB_lt {n : Node} (hs : nodeSortedB n = true) {j i : Nat}
    (hj : j < i) (hi : i < n.keyNum) : less (n.keyB j) (n.keyB i) = true := by
  simp only [nodeSortedB, List.all_eq_true, List.mem_range] at hs
  exact hs i hi j hj

theorem allNodesSorted_getN {t : BPTree} (h : allNodesSorted t = true) (id : Nat) :
    nodeSortedB (getN t id) = true := by
  unfold getN
  by_cases hid : id < t.nodes.length
  · simp only [allNodesSorted, List.all_eq_true] at h
    rw [List.getD_eq_getElem?_getD, List.getElem?_eq_getElem hid]
    exact h _ (List.getElem_mem hid)
  · rw [List.getD_eq_getElem?_getD, List.getElem?_eq_none (by omega)]
    rfl

theorem putScanGo_inl {n : Node} {k : Bytes} {m : Nat}
    (hs : nodeSortedB n = true) (hm : m < n.keyNum)
    (hc : compareBytes k (n.keyB m) = 0)
    (hfirst : ∀ j, j < m → compareBytes k (n.keyB j) ≠ 0) :
    ∀ fuel i, i ≤ m → m < i + fuel → putScanGo n k i fuel = Sum.inl m := by
  intro fuel
  induction fuel with
  | zero => intro i h1 h2; omega
  | succ fuel ih =>
    intro i h1 h2
    simp only [putScanGo]
    have hi : i < n.keyNum := by omega
    simp only [hi, if_true]
    rcases Nat.eq_or_lt_of_le h1 with rfl | hlt
    · simp [hc]
    · have hne := hfirst i hlt
      have hkm : k = n.keyB m := compareBytes_eq_zero_iff.mp hc
      have hless : less (n.keyB i) (n.keyB m) = true := nodeSortedB_lt hs hlt hm
      have hpos : 0 < compareBytes k (n.keyB i) := by
        rw [hkm]
        exact compareBytes_pos_of_neg (by simpa [less, decide_eq_true_eq] using hless)
      have hnl : ¬ compareBytes k (n.keyB i) < 0 := by omega
      simp only [hne, if_false, hnl, if_false]
      exact ih (i + 1) (by omega) (by omega)

/-- C5: a `Put` of a key the tree does not store grows `Size()` by exactly
one (the size counter is touched once, after however many splits cascade);
a `Put` of a stored key is an overwrite returning the previous value and
leaving `Size()` unchanged; a successful `Delete` shrinks `Size()` by
exactly one. -/
theorem Put_Delete_size_spec (t : BPTree) (k v : Bytes) :
    (t.Get k = some (none, false) →
      ∀ res t1, t.Put k v = some (res, t1) →
        res = (none, false) ∧ t1.size = t.size + 1) ∧
    (∀ v0, allNodesSorted t = true → t.Get k = some (some v0, true) →
      ∀ res t1, t.Put k v = some (res, t1) →
        res = (some v0, true) ∧ t1.size = t.size) ∧
    (∀ v0 t1, t.Delete k = some ((v0, true), t1) → t1.size = t.size - 1) := by
  refine ⟨?_, ?_, ?_⟩
  · intro hget res t1 hput
    unfold BPTree.Get at hget
    unfold BPTree.Put at hput
    cases hr : t.root with
    | none =>
      rw [hr] at hput
      cases hput
      exact ⟨rfl, rfl⟩
    | some r =>
      rw [hr] at hget hput
      obtain ⟨leafId, hfl, hscan⟩ := Option.bind_eq_some.mp hget
      obtain ⟨leafId2, hfl2, hpil⟩ := Option.bind_eq_some.mp hput
      rw [hfl] at hfl2
      cases hfl2
      have habs := getScan_absent hscan
      obtain ⟨p, hp⟩ := putScanGo_inr (n := getN t leafId) (k := k)
        ((getN t leafId).keyNum - 0) 0 (fun j _ hj => habs j hj)
      have hp' : putScanPos (getN t leafId) k 0 = Sum.inr p := hp
      unfold BPTree.putIntoLeaf at hpil
      dsimp only at hpil
      rw [hp'] at hpil
      dsimp only at hpil
      split at hpil
      · obtain ⟨t1', hins, heq⟩ := Option.bind_eq_some.mp hpil
        cases hins
        cases heq
        exact ⟨rfl, rfl⟩
      · obtain ⟨t1', hins, heq⟩ := Option.bind_eq_some.mp hpil
        cases heq
        exact ⟨rfl, by simpa using putFullPath_size hins⟩
  · intro v0 hsorted hget res t1 hput
    unfold BPTree.Get at hget
    unfold BPTree.Put at hput
    cases hr : t.root with
    | none => rw [hr] at hget; simp at hget
    | some r =>
      rw [hr] at hget hput
      obtain ⟨leafId, hfl, hscan⟩ := Option.bind_eq_some.mp hget
      obtain ⟨leafId2, hfl2, hpil⟩ := Option.bind_eq_some.mp hput
      rw [hfl] at hfl2
      cases hfl2
      have hscan2 : getScanGo (getN t leafId) k 0 ((getN t leafId).keyNum - 0) =
        some (some v0, true) := hscan
      obtain ⟨m, _, hm, hc, hv, hfirst⟩ :=
        getScanGo_found ((getN t leafId).keyNum - 0) 0 v0 hscan2
      have hsn := allNodesSorted_getN hsorted leafId
      have hp' : putScanPos (getN t leafId) k 0 = Sum.inl m :=
        putScanGo_inl hsn hm hc (fun j hj => hfirst j (by omega) hj) _ 0 (by omega)
          (by omega)
      unfold BPTree.putIntoLeaf at hpil
      dsimp only at hpil
      rw [hp'] at hpil
      dsimp only at hpil
      obtain ⟨oldV, hov, heq⟩ := Option.bind_eq_some.mp hpil
      rw [hv] at hov
      cases hov
      cases heq
      exact ⟨rfl, rfl⟩
  · intro v0 t1 hdel
    unfold BPTree.Delete at hdel
    cases hr : t.root with
    | none => rw [hr] at hdel; simp at hdel
    | some r =>
      rw [hr] at hdel
      cases hfl : t.findLeaf k with
      | none => rw [hfl] at hdel; cases hdel
      | some leafId =>
        rw [hfl] at hdel
        dsimp only at hdel
        cases hdalr : t.deleteAtLeafAndRebalance leafId k with
        | none => rw [hdalr] at hdel; cases hdel
        | some pr =>
          obtain ⟨⟨value, deleted⟩, t2⟩ := pr
          rw [hdalr] at hdel
          dsimp only at hdel
          cases deleted with
          | false => simp at hdel
          | true =>
            simp at hdel
            obtain ⟨h1, h2⟩ := hdel
            subst h2
            have hs := deleteAtLeafAndRebalance_size hdalr
            simp [hs]

/-- Witness for C5: a split-inducing insert of a new key, an overwrite, and
a successful delete, on concrete trees. -/
theorem Put_Delete_size_spec_witness :
    ((exTree2.Put [2] [9]).map (fun r => r.2.size) = some (exTree2.size + 1)) ∧
    ((exTree1.Put [1] [9]).map (fun r => (r.1, r.2.size)) =
      some ((some [7], true), exTree1.size)) ∧
    ((exTree1.Delete [1]).map (fun r => (r.1, r.2.size)) =
      some ((some [7], true), exTree1.size - 1)) := by
  refine ⟨?_, ?_, ?_⟩
  · rcases hput : exTree2.Put [2] [9] with - | ⟨res, t1⟩
    · exact absurd hput (by decide)
    · have h := (Put_Delete_size_spec exTree2 [2] [9]).1 (by decide) res t1 hput
      simpa using h.2
  · rcases hput : exTree1.Put [1] [9] with - | ⟨res, t1⟩
    · exact absurd hput (by decide)
    · have h := (Put_Delete_size_spec exTree1 [1] [9]).2.1 [7] (by decide) (by decide) res t1 hput
      simp [h.1, h.2]
  · rcases hdel : exTree1.Delete [1] with - | ⟨res, t1⟩
    · exact absurd hdel (by decide)
    · have hres : res = (some [7], true) := by
        have := hdel
        rw [show exTree1.Delete [1] = some ((some [7], true),
          { nodes := [{ leaf := true, parent := none, keys := [none, none], keyNum := 0,
                        pointers := [none, none, none] }],
            root := none, leftmost := some 0, order := 3, size := 0,
            minKeyNum := 1 }) from by decide] at this
        cases this
        rfl
      subst hres
      have h := (Put_Delete_size_spec exTree1 [1] [9]).2.2 (some [7]) t1 hdel
      simp [h]

/-- C7: `HasNext` is true exactly when the leaf reference is non-null and
the in-leaf index is below that leaf's key count; on a leaf whose live
pointer slots hold values and whose last slot is nil or a node, `Next`
faults exactly when `HasNext` is false, and otherwise yields the entry at
the current index and advances: within the leaf, or to the chained next
leaf at index 0, or to the terminated state (null leaf reference) when
there is no next leaf. -/
theorem Iterator_HasNext_Next_spec (t : BPTree) (it : Iterator) :
    (it.HasNext t = true ↔ ∃ id, it.next = some id ∧ it.i < (getN t id).keyNum) ∧
    ((∀ id, it.next = some id → iterLeafOKB (getN t id) = true) →
      ((it.Next t = none ↔ it.HasNext t = false) ∧
       (∀ id, it.next = some id → it.i < (getN t id).keyNum →
         ∃ v, asValue ((getN t id).ptr it.i) = some v ∧
           ((it.i + 1 < (getN t id).keyNum →
              it.Next t = some (((getN t id).key it.i, v),
                { next := it.next, i := it.i + 1 })) ∧
            (it.i + 1 = (getN t id).keyNum → (getN t id).lastPointer = none →
              it.Next t = some (((getN t id).key it.i, v), { next := none, i := 0 })) ∧
            (∀ c, it.i + 1 = (getN t id).keyNum →
              (getN t id).lastPointer = some (.node c) →
              it.Next t = some (((getN t id).key it.i, v),
                { next := some c, i := 0 })))))) := by
  constructor
  · unfold Iterator.HasNext
    cases hn : it.next with
    | none => simp
    | some id => simp [decide_eq_true_eq]
  · intro hok
    have hstep : ∀ id, it.next = some id → it.i < (getN t id).keyNum →
        ∃ v, asValue ((getN t id).ptr it.i) = some v ∧
          ((it.i + 1 < (getN t id).keyNum →
             it.Next t = some (((getN t id).key it.i, v),
               { next := it.next, i := it.i + 1 })) ∧
           (it.i + 1 = (getN t id).keyNum → (getN t id).lastPointer = none →
             it.Next t = some (((getN t id).key it.i, v), { next := none, i := 0 })) ∧
           (∀ c, it.i + 1 = (getN t id).keyNum →
             (getN t id).lastPointer = some (.node c) →
             it.Next t = some (((getN t id).key it.i, v),
               { next := some c, i := 0 }))) := by
      intro id hid hlt
      have hokid := hok id hid
      unfold iterLeafOKB at hokid
      rw [Bool.and_eq_true] at hokid
      obtain ⟨hvals, hlast⟩ := hokid
      rw [List.all_eq_true] at hvals
      have hv0 := hvals it.i (List.mem_range.mpr hlt)
      obtain ⟨v, hv⟩ := Option.isSome_iff_exists.mp hv0
      have hhn : it.HasNext t = true := by
        unfold Iterator.HasNext
        rw [hid]
        simpa using hlt
      refine ⟨v, hv, ?_, ?_, ?_⟩
      · intro hlt2
        simp [Iterator.Next, hhn, hid, hv, Nat.ne_of_lt hlt2]
      · intro heq hnone
        simp [Iterator.Next, hhn, hid, hv, heq, hnone]
      · intro c heq hsome
        simp [Iterator.Next, hhn, hid, hv, heq, hsome, asNode]
    refine ⟨⟨?_, ?_⟩, hstep⟩
    · intro hnone
      by_contra hh
      have hnx : it.HasNext t = true := by simpa using hh
      unfold Iterator.HasNext at hnx
      rcases hn : it.next with - | id
      · rw [hn] at hnx; cases hnx
      · rw [hn] at hnx
        have hlt : it.i < (getN t id).keyNum := by simpa using hnx
        obtain ⟨v, hv, h1, h2, h3⟩ := hstep id hn hlt
        rcases Nat.lt_or_ge (it.i + 1) (getN t id).keyNum with hc | hc
        · rw [h1 hc] at hnone; cases hnone
        · have heq : it.i + 1 = (getN t id).keyNum := by omega
          have hokid := hok id hn
          unfold iterLeafOKB at hokid
          rw [Bool.and_eq_true] at hokid
          rcases hlp : (getN t id).lastPointer with - | p
          · rw [h2 heq hlp] at hnone; cases hnone
          · rcases p with c | w
            · rw [h3 c heq hlp] at hnone; cases hnone
            · rw [hlp] at hokid
              simpa using hokid.2
    · intro hfalse
      simp [Iterator.Next, hfalse]

/-- Witness for C7 on a concrete two-leaf tree: an in-leaf hop to the next
leaf, a terminating advance, and the fault on an exhausted iterator. -/
theorem Iterator_HasNext_Next_spec_witness :
    (({ next := some 0, i := 0 } : Iterator).Next exTree3 =
      some ((some [1], [7]), { next := some 1, i := 0 })) ∧
    (({ next := some 1, i := 1 } : Iterator).Next exTree3 =
      some ((some [3], [8]), { next := none, i := 0 })) ∧
    (({ next := none, i := 0 } : Iterator).Next exTree3 = none) := by
  refine ⟨?_, ?_, ?_⟩
  · have h := (Iterator_HasNext_Next_spec exTree3 { next := some 0, i := 0 }).2
      (fun id hid => by cases hid; decide)
    obtain ⟨v, hv, h1, h2, h3⟩ := h.2 0 rfl (by decide)
    have hv' : v = [7] := by
      rw [show asValue ((getN exTree3 0).ptr 0) = some [7] from by decide] at hv
      cases hv; rfl
    subst hv'
    exact h3 1 (by decide) (by decide)
  · have h := (Iterator_HasNext_Next_spec exTree3 { next := some 1, i := 1 }).2
      (fun id hid => by cases hid; decide)
    obtain ⟨v, hv, h1, h2, h3⟩ := h.2 1 rfl (by decide)
    have hv' : v = [8] := by
      rw [show asValue ((getN exTree3 1).ptr 1) = some [8] from by decide] at hv
      cases hv; rfl
    subst hv'
    exact h2 (by decide) (by decide)
  · have h := (Iterator_HasNext_Next_spec exTree3 { next := none, i := 0 }).2
      (fun id hid => by cases hid)
    exact h.1.mpr (by decide)

theorem shiftKeysLeftGo_keyNum : ∀ (fuel : Nat) (n : Node) (j : Nat),
    (shiftKeysLeftGo n j fuel).keyNum = n.keyNum := by
  intro fuel
  induction fuel with
  | zero => intro n j; rfl
  | succ fuel ih => intro n j; simpa using ih _ (j + 1)

theorem shiftPtrsLeftGo_keyNum : ∀ (fuel : Nat) (n : Node) (j : Nat),
    (shiftPtrsLeftGo n j fuel).keyNum = n.keyNum := by
  intro fuel
  induction fuel with
  | zero => intro n j; rfl
  | succ fuel ih => intro n j; simpa using ih _ (j + 1)

theorem deleteAt_keyNum (n : Node) (kp pp : Nat) :
    (n.deleteAt kp pp).keyNum = n.keyNum - 1 := by
  unfold Node.deleteAt
  dsimp only
  simp [shiftKeysLeft, shiftPtrsLeft, shiftKeysLeftGo_keyNum, shiftPtrsLeftGo_keyNum,
    Node.setKey, Node.setPtr]

theorem deleteAt_parent (n : Node) (kp pp : Nat) :
    (n.deleteAt kp pp).parent = n.parent := by
  unfold Node.deleteAt
  dsimp only
  have h1 : ∀ fuel m j, (shiftKeysLeftGo m j fuel).parent = m.parent := by
    intro fuel
    induction fuel with
    | zero => intro m j; rfl
    | succ fuel ih => intro m j; simpa using ih _ (j + 1)
  have h2 : ∀ fuel m j, (shiftPtrsLeftGo m j fuel).parent = m.parent := by
    intro fuel
    induction fuel with
    | zero => intro m j; rfl
    | succ fuel ih => intro m j; simpa using ih _ (j + 1)
  simp [shiftKeysLeft, shiftPtrsLeft, h1, h2, Node.setKey, Node.setPtr]

theorem getN_lt_of_keyNum {t : BPTree} {rid : Nat} (h : (getN t rid).keyNum ≠ 0) :
    rid < t.nodes.length := by
  by_contra hge
  unfold getN at h
  rw [List.getD_eq_getElem?_getD, List.getElem?_eq_none (by omega)] at h
  exact h rfl

theorem getN_setN_self {t : BPTree} {id : Nat} {n : Node} (h : id < t.nodes.length) :
    getN (setN t id n) id = n := by
  unfold getN setN
  simp only [List.getD_eq_getElem?_getD]
  rw [List.getElem?_set_self (by simpa using h)]
  rfl

/-- C8 (amended): when `Delete` removes the last remaining key from a root
leaf, the root reference becomes none, but `leftmost` is NOT cleared: it
still references the emptied former root leaf.  Iteration still yields
nothing, since that leaf has zero keys, and the next `Put` reinitializes
`leftmost`. -/
theorem delete_last_root_key_amended (t : BPTree) (rid : Nat) (k v : Bytes)
    (hroot : t.root = some rid)
    (hlm : t.leftmost = some rid)
    (hleaf : (getN t rid).leaf = true)
    (hpar : (getN t rid).parent = none)
    (hnum : (getN t rid).keyNum = 1)
    (hkey : compareBytes k ((getN t rid).keyB 0) = 0)
    (hval : (getN t rid).ptr 0 = some (.val v)) :
    ∃ t1, t.Delete k = some ((some v, true), t1) ∧
      t1.root = none ∧ t1.leftmost = some rid ∧
      (t1.Iterator).HasNext t1 = false ∧ t1.size = t.size - 1 := by
  have hlen : rid < t.nodes.length := getN_lt_of_keyNum (by omega)
  have hfl : t.findLeaf k = some rid := by
    unfold BPTree.findLeaf
    rw [hroot]
    unfold findLeafLoop
    simp [hleaf]
  have hkp : (getN t rid).keyPosition k = 0 := by
    unfold Node.keyPosition
    rw [hnum]
    unfold keyPositionGo
    simp [hnum, hkey]
  have hdalr : t.deleteAtLeafAndRebalance rid k =
      some ((some v, true),
        { setN t rid ((getN t rid).deleteAt 0 0) with root := none }) := by
    unfold BPTree.deleteAtLeafAndRebalance
    dsimp only
    rw [hkp]
    simp only [show ((0 : Int) = -1) = False from by simp, if_false]
    rw [show (0 : Int).toNat = 0 from rfl, hval]
    dsimp only [asValue]
    rw [hpar]
    have hkn : (getN (setN t rid ((getN t rid).deleteAt 0 0)) rid).keyNum = 0 := by
      rw [getN_setN_self hlen, deleteAt_keyNum, hnum]
    rw [hkn]
    simp
  refine ⟨({ setN t rid ((getN t rid).deleteAt 0 0) with
      root := none,
      size := t.size - 1 } : BPTree), ?_, rfl, hlm, ?_, rfl⟩
  · unfold BPTree.Delete
    rw [hroot]
    dsimp only
    rw [hfl]
    dsimp only
    rw [hdalr]
    rfl
  · unfold BPTree.Iterator Iterator.HasNext
    dsimp only
    rw [show ({ setN t rid ((getN t rid).deleteAt 0 0) with
        root := none,
        size := t.size - 1 } : BPTree).leftmost = some rid from hlm]
    show decide
      (0 < (getN (setN t rid ((getN t rid).deleteAt 0 0)) rid).keyNum) = false
    rw [getN_setN_self hlen, deleteAt_keyNum, hnum]
    rfl

/-- C8 counterexample: on the concrete one-key order-3 tree, deleting the
sole key `[1]` sets the root to none but `leftmost` still references node
0 (the emptied leaf), so "its leftmost reference becomes none" fails. -/
theorem delete_last_root_key_counterexample :
    ((exTree1.Delete [1]).map (fun r => (r.2.root, r.2.leftmost)) =
      some (none, some 0)) ∧
    ¬ ((exTree1.Delete [1]).map (fun r => r.2.leftmost) = some none) := by
  constructor <;> decide

/-- Witness for the amended C8 at the concrete one-key tree. -/
theorem delete_last_root_key_amended_witness :
    (exTree1.Delete [1]).map
      (fun r => (r.1, r.2.root, r.2.leftmost, (r.2.Iterator).HasNext r.2, r.2.size)) =
      some ((some [7], true), none, some 0, false, 0) := by
  obtain ⟨t1, hdel, h1, h2, h3, h4⟩ :=
    delete_last_root_key_amended exTree1 0 [1] [7] (by decide) (by decide) (by decide)
      (by decide) (by decide) (by decide) (by decide)
  rw [hdel]
  simp [h1, h2, h3, h4]
  rfl

/-- C9 counterexample: two `Put`s into an order-3 tree (modelled with
explicit slice identity).  The first key (buffer 0) is stored as a fresh
copy (buffer 2), but the second insertion stores the caller's buffer 1
itself; externally overwriting buffer 1 with `[9]` changes the key held by
the tree from `[2]` to `[9]`. -/
theorem defensive_copy_counterexample :
    (initializeRootR 3 ⟨[[1], [2]]⟩ 0 [7] =
      (⟨[[1], [2], [1]]⟩, ⟨[some 2, none], 1, [some [7], none, none]⟩)) ∧
    (putIntoLeafR ⟨[[1], [2], [1]]⟩ ⟨[some 2, none], 1, [some [7], none, none]⟩ 1 [8] =
      some ⟨[some 2, some 1], 2, [some [7], some [8], none]⟩) ∧
    (RefLeaf.keyB ⟨[[1], [2], [1]]⟩
      ⟨[some 2, some 1], 2, [some [7], some [8], none]⟩ 1 = [2]) ∧
    (RefLeaf.keyB (writeBuf ⟨[[1], [2], [1]]⟩ 1 [9])
      ⟨[some 2, some 1], 2, [some [7], some [8], none]⟩ 1 = [9]) ∧
    ¬ (RefLeaf.keyB (writeBuf ⟨[[1], [2], [1]]⟩ 1 [9])
      ⟨[some 2, some 1], 2, [some [7], some [8], none]⟩ 1 = [2]) := by
  refine ⟨?_, ?_, ?_, ?_, ?_⟩ <;> decide

theorem shiftSlotsRight_length {α : Type} :
    ∀ (j : Nat) (l : List (Option α)) (stop : Nat),
      (shiftSlotsRight l j stop).length = l.length := by
  intro j
  induction j with
  | zero => intro l stop; rfl
  | succ j ih =>
    intro l stop
    unfold shiftSlotsRight
    split
    · rw [ih]; simp
    · rfl

theorem putScanGoR_inr_le {B : Bufs} {n : RefLeaf} {k : Bytes} :
    ∀ (fuel i p : Nat), putScanGoR B n k i fuel = Sum.inr p → p ≤ i + fuel := by
  intro fuel
  induction fuel with
  | zero => intro i p h; cases h; omega
  | succ fuel ih =>
    intro i p h
    simp only [putScanGoR] at h
    split at h
    · split at h
      · cases h
      · split at h
        · cases h; omega
        · have := ih (i + 1) p h; omega
    · cases h; omega

/-- C9 (amended): only the very first `Put` into an empty tree copies the
key defensively — `initializeRoot` stores a freshly allocated slice with
the caller's content; an insertion into an existing (non-full) leaf stores
the caller's slice reference itself, unchanged, so a later external
mutation of the caller's buffer changes the key held by the tree. -/
theorem defensive_copy_amended (B : Bufs) (n : RefLeaf) (kRef v0 : Nat) (v x : Bytes)
    (order : Nat) (horder : 3 ≤ order) :
    (initializeRootR order B v0 v).2.keys.getD 0 none = some B.bufs.length ∧
    readBuf (initializeRootR order B v0 v).1 B.bufs.length = readBuf B v0 ∧
    (∀ insertPos n', putScanPosR B n (readBuf B kRef) 0 = Sum.inr insertPos →
      n.keyNum < n.keys.length →
      putIntoLeafR B n kRef v = some n' →
      n'.keys.getD insertPos none = some kRef ∧
      (kRef < B.bufs.length → RefLeaf.keyB (writeBuf B kRef x) n' insertPos = x)) := by
  refine ⟨?_, ?_, ?_⟩
  · obtain ⟨m, rfl⟩ : ∃ m, order = m + 3 := ⟨order - 3, by omega⟩
    simp [initializeRootR, copyBytesR, List.replicate_succ,
      show m + 3 - 1 = m + 2 from rfl]
  · simp [initializeRootR, copyBytesR, readBuf]
  · intro insertPos n' hscan hroom hput
    have hle : insertPos ≤ n.keyNum := by
      have := putScanGoR_inr_le (n.keyNum - 0) 0 insertPos hscan
      omega
    unfold putIntoLeafR at hput
    rw [show putScanPosR B n (readBuf B kRef) 0 = Sum.inr insertPos from hscan] at hput
    dsimp only at hput
    rw [if_pos hroom] at hput
    cases hput
    have hlen : insertPos < (shiftSlotsRight n.keys n.keyNum insertPos).length := by
      rw [shiftSlotsRight_length]
      omega
    constructor
    · dsimp only
      rw [List.getD_eq_getElem?_getD, List.getElem?_set_self (by simpa using hlen)]
      rfl
    · intro hkr
      unfold RefLeaf.keyB
      dsimp only
      rw [List.getD_eq_getElem?_getD, List.getElem?_set_self (by simpa using hlen)]
      dsimp only [Option.getD]
      unfold writeBuf readBuf
      dsimp only
      rw [List.getD_eq_getElem?_getD, List.getElem?_set_self (by simpa using hkr)]
      rfl

/-- Witness for the amended C9: concrete buffers for both the initial
(copied) insert and a later (aliased) insert. -/
theorem defensive_copy_amended_witness :
    (initializeRootR 3 ⟨[[1], [2]]⟩ 0 [7]).2.keys.getD 0 none = some 2 ∧
    readBuf (initializeRootR 3 ⟨[[1], [2]]⟩ 0 [7]).1 2 = [1] ∧
    ((putIntoLeafR ⟨[[1], [2], [1]]⟩ ⟨[some 2, none], 1, [some [7], none, none]⟩ 1 [8]).map
      (fun n' => (n'.keys.getD 1 none,
        RefLeaf.keyB (writeBuf ⟨[[1], [2], [1]]⟩ 1 [9]) n' 1))) = some (some 1, [9]) := by
  refine ⟨?_, ?_, ?_⟩
  · exact (defensive_copy_amended ⟨[[1], [2]]⟩ ⟨[], 0, []⟩ 0 0 [7] [] 3 (by omega)).1
  · exact (defensive_copy_amended ⟨[[1], [2]]⟩ ⟨[], 0, []⟩ 0 0 [7] [] 3 (by omega)).2.1
  · rcases hput : putIntoLeafR ⟨[[1], [2], [1]]⟩
        ⟨[some 2, none], 1, [some [7], none, none]⟩ 1 [8] with - | n'
    · exact absurd hput (by decide)
    · have h := (defensive_copy_amended ⟨[[1], [2], [1]]⟩
        ⟨[some 2, none], 1, [some [7], none, none]⟩ 1 0 [8] [9] 3 (by omega)).2.2
        1 n' (by decide) (by decide) hput
      simp [h.1, h.2 (by decide)]
      rw [← List.getD_eq_getElem?_getD]
      exact h.1
